import Mathlib

/-!
Shallow embedding of the VRL compiler core (lib/vrl/compiler): the Kind/TypeDef
lattice, the expression nodes vendored under src/ (Array, Noop, FunctionCall),
the function-call argument binder, and the bytecode emission of both nodes.

Definitions are translated from the Rust source files
`src/lib/vrl/compiler/src/expression/function_call.rs`,
`src/lib/vrl/compiler/src/expression/array.rs` and
`src/lib/vrl/compiler/src/expression/noop.rs`.  Types that the source uses but
that are not vendored (Kind, TypeDef, Value, the Vm buffer, the diagnostic
types, Function::resolve_arguments) are modelled from the specification; each
such definition says so in its doc comment.
-/

set_option maxHeartbeats 1600000

/-- Source byte-offset range used to anchor diagnostics.  The Rust field `end`
is named `stop` here because `end` is reserved in Lean. -/
structure Span where
  start : Nat
  stop : Nat
deriving DecidableEq, Repr

/-- Mirrors `Span::new`. -/
def Span.new (s e : Nat) : Span := ⟨s, e⟩

/-- Modelled from the spec: the scalar shapes a `Kind` may contain (null,
boolean, integer, float, byte-string, timestamp, regex); each flag records
whether the shape is a possible one. -/
structure KindFlags where
  kbytes : Bool
  kinteger : Bool
  kfloat : Bool
  kboolean : Bool
  ktimestamp : Bool
  kregex : Bool
  knull : Bool
deriving DecidableEq, Repr

/-- Modelled from the spec: a `Kind` is a set of possible value shapes; the
array and object shapes carry structural detail, a mapping from index (array)
or field name (object) to a nested `Kind`. -/
inductive Kind where
  | mk (flags : KindFlags) (karray : Option (List (Nat × Kind)))
      (kobject : Option (List (String × Kind)))

def Kind.flags : Kind → KindFlags
  | .mk f _ _ => f

def Kind.karray : Kind → Option (List (Nat × Kind))
  | .mk _ a _ => a

def Kind.kobject : Kind → Option (List (String × Kind))
  | .mk _ _ o => o

/-- Scalar-shape overlap between two flag sets. -/
def KindFlags.overlaps (a b : KindFlags) : Bool :=
  (a.kbytes && b.kbytes) || (a.kinteger && b.kinteger) || (a.kfloat && b.kfloat)
    || (a.kboolean && b.kboolean) || (a.ktimestamp && b.ktimestamp)
    || (a.kregex && b.kregex) || (a.knull && b.knull)

/-- Scalar-shape containment: every shape possible in `b` is possible in `a`. -/
def KindFlags.subsumes (a b : KindFlags) : Bool :=
  (!b.kbytes || a.kbytes) && (!b.kinteger || a.kinteger) && (!b.kfloat || a.kfloat)
    && (!b.kboolean || a.kboolean) && (!b.ktimestamp || a.ktimestamp)
    && (!b.kregex || a.kregex) && (!b.knull || a.knull)

/-- Modelled from the spec: `Kind::intersects` holds when the sets of possible
shapes overlap at all.  The spec leaves the structural boundary for array and
object Kinds open (design note of the spec), so containers are compared at the
shape level: two Kinds that both admit the array shape (or both the object
shape) overlap. -/
def Kind.intersects (a b : Kind) : Bool :=
  KindFlags.overlaps a.flags b.flags || (a.karray.isSome && b.karray.isSome)
    || (a.kobject.isSome && b.kobject.isSome)

/-- Modelled from the spec: `Kind::is_superset` holds when every shape possible
in the right-hand Kind is possible in the left.  Containers are compared at the
shape level, matching the choice documented at `Kind.intersects`. -/
def Kind.is_superset (a b : Kind) : Bool :=
  KindFlags.subsumes a.flags b.flags && (!b.karray.isSome || a.karray.isSome)
    && (!b.kobject.isSome || a.kobject.isSome)

def KindFlags.none0 : KindFlags := ⟨false, false, false, false, false, false, false⟩

def Kind.bytes : Kind := .mk { KindFlags.none0 with kbytes := true } none none

def Kind.integer : Kind := .mk { KindFlags.none0 with kinteger := true } none none

def Kind.float : Kind := .mk { KindFlags.none0 with kfloat := true } none none

def Kind.boolean : Kind := .mk { KindFlags.none0 with kboolean := true } none none

def Kind.null : Kind := .mk { KindFlags.none0 with knull := true } none none

/-- An array Kind carrying its structural detail. -/
def Kind.arrayOf (c : List (Nat × Kind)) : Kind := .mk KindFlags.none0 (some c) none

/-- An object Kind carrying its structural detail. -/
def Kind.objectOf (c : List (String × Kind)) : Kind := .mk KindFlags.none0 none (some c)

/-- Modelled from the spec: a `TypeDef` is a Kind plus the `fallible` and
`abortable` flags, everything statically known about an expression result. -/
structure TypeDef where
  fallible : Bool
  abortable : Bool
  kind : Kind

/-- Mirrors `TypeDef::is_fallible`. -/
def TypeDef.is_fallible (t : TypeDef) : Bool := t.fallible

/-- Mirrors `TypeDef::with_fallibility`. -/
def TypeDef.with_fallibility (t : TypeDef) (b : Bool) : TypeDef := { t with fallible := b }

/-- Mirrors `TypeDef::abortable` (spec: sets abortable and clears ordinary
fallibility, the two being mutually exclusive failure channels). -/
def TypeDef.toAbortable (t : TypeDef) : TypeDef := { t with abortable := true, fallible := false }

/-- Mirrors `TypeDef::infallible`. -/
def TypeDef.infallible (t : TypeDef) : TypeDef := { t with fallible := false }

/-- Mirrors `TypeDef::null`. -/
def TypeDef.null : TypeDef := ⟨false, false, Kind.null⟩

/-- Mirrors `TypeDef::array` applied to a collection of positional entries. -/
def TypeDef.array (c : List (Nat × Kind)) : TypeDef := ⟨false, false, Kind.arrayOf c⟩

/-- Modelled from the spec: the runtime value representation is an external
collaborator; only the constructors the vendored nodes touch are kept. -/
inductive Value where
  | null
  | boolean (b : Bool)
  | integer (i : Int)
  | bytes (s : String)
  | array (vs : List Value)

/-- Modelled from the spec: a span-anchored diagnostic label. -/
structure Label where
  message : String
  isPrimary : Bool
  lspan : Span

/-- Mirrors `Label::primary`. -/
def Label.primary (m : String) (s : Span) : Label := ⟨m, true, s⟩

/-- Modelled from the spec: `ExpressionError` has an ordinary recoverable
`Error` (message, labels, notes) and the reserved `Abort` control-flow
signal, anchored to the span of the abort construct. -/
inductive ExpressionError where
  | error (message : String) (labels : List Label) (notes : List String)
  | abort (aspan : Span)

/-- Runtime context, modelled as the trace of leaf expressions evaluated so
far; each modelled leaf appends its identifier when resolved, which makes
evaluation order and short-circuiting observable. -/
abbrev Context := List Nat

/-- Outcome of resolving one expression: a value, a recoverable error, or a
Rust panic (hard stop). -/
inductive ROut (α : Type) where
  | ok (a : α)
  | err (e : ExpressionError)
  | panicked (msg : String)

/-- The bytecode opcodes the vendored nodes emit (`vm::OpCode`). -/
inductive OpCode where
  | constant
  | createArray
  | moveStaticParameter
  | moveParameter
  | emptyParameter
  | call
deriving DecidableEq, Repr

/-- One slot of the opcode stream: an opcode or an inline primitive operand. -/
inductive Instr where
  | op (o : OpCode)
  | primitive (n : Nat)
deriving DecidableEq, Repr

/-- The expression nodes vendored under src/, plus a modelled `leaf` standing
for the node variants the spec leaves structurally identical in contract
(literals, paths, ...): a leaf carries an identifier (appended to the runtime
trace when resolved), its resolve result and its static TypeDef.  The
`fcall` constructor carries exactly the fields of the `FunctionCall` struct;
an argument is the flattening of `Node<FunctionArgument>`: the argument node
span, the optional keyword node (span and identifier) and the expression node
(span and expression). -/
inductive Expr where
  | leaf (id : Nat) (res : Except ExpressionError Value) (td : TypeDef)
  | noop
  | array (elems : List Expr)
  | fcall (abortOnError : Bool) (inner : Expr) (maybeFallibleArguments : Bool)
      (span : Span) (ident : String) (functionId : Nat)
      (arguments : List (Span × Option (Span × String) × Span × Expr))

/-- Flattened `Node<FunctionArgument>`. -/
abbrev Arg := Span × Option (Span × String) × Span × Expr

/-- Mirrors `FunctionArgument::keyword`. -/
def argKeyword (a : Arg) : Option String := a.2.1.map (·.2)

/-- Mirrors `FunctionArgument::keyword_span`. -/
def argKeywordSpan (a : Arg) : Option Span := a.2.1.map (·.1)

/-- The expression carried by the argument. -/
def argExpr (a : Arg) : Expr := a.2.2.2

/-- Mirrors `FunctionArgument::span` (the span of the inner expression node). -/
def argExprSpan (a : Arg) : Span := a.2.2.1

/-- The span of the whole argument node. -/
def argNodeSpan (a : Arg) : Span := a.1

mutual

/-- Mirrors `Expression::type_def` for the vendored nodes.  Array
(`Array::type_def`): the children's TypeDefs are collected in source order,
the array is fallible iff any child is, and the Kind maps index i to child
i's Kind.  FunctionCall (`FunctionCall::type_def`): the inner expression's
TypeDef, forced fallible when an argument only partially matched, and turned
abortable (clearing fallibility) under `abort_on_error`. -/
def Expr.typeDef : Expr → TypeDef
  | .leaf _ _ td => td
  | .noop => TypeDef.null.infallible
  | .array es =>
      let typeDefs := typeDefList es
      let fallible := typeDefs.any TypeDef.is_fallible
      let collection := (typeDefs.map TypeDef.kind).enum
      (TypeDef.array collection).with_fallibility fallible
  | .fcall abortOnError inner maybeFallibleArguments _ _ _ _ =>
      let td := inner.typeDef
      let td := if maybeFallibleArguments then td.with_fallibility true else td
      if abortOnError then (td.with_fallibility false).toAbortable else td

/-- TypeDefs of a list of expressions, in order. -/
def typeDefList : List Expr → List TypeDef
  | [] => []
  | e :: rest => e.typeDef :: typeDefList rest

end

theorem typeDefList_eq_map (es : List Expr) : typeDefList es = es.map Expr.typeDef := by
  induction es with
  | nil => simp [typeDefList]
  | cons e rest ih => simp [typeDefList, ih]

mutual

/-- Mirrors `Expression::resolve` for the vendored nodes, with a Rust panic
made explicit as `ROut.panicked`.  Noop (`Noop::resolve`) yields null.  Array
(`Array::resolve`) collects the children left to right, short-circuiting at
the first failure.  FunctionCall (`FunctionCall::resolve`) resolves its inner
expression and maps an error: an `Abort` is a logic fault and panics, an
ordinary `Error` is re-wrapped with the call identifier and span. -/
def resolveO : Expr → Context → ROut Value × Context
  | .leaf i res _, ctx =>
      (match res with
        | .ok v => .ok v
        | .error e => .err e,
       ctx ++ [i])
  | .noop, ctx => (.ok Value.null, ctx)
  | .array es, ctx =>
      match resolveList es ctx with
      | (.ok vs, ctx2) => (.ok (Value.array vs), ctx2)
      | (.err e, ctx2) => (.err e, ctx2)
      | (.panicked m, ctx2) => (.panicked m, ctx2)
  | .fcall _ inner _ span ident _ _, ctx =>
      match resolveO inner ctx with
      | (.ok v, ctx2) => (.ok v, ctx2)
      | (.panicked m, ctx2) => (.panicked m, ctx2)
      | (.err e, ctx2) =>
          match e with
          | .abort _ =>
              (.panicked "abort errors must only be defined by `abort` statement", ctx2)
          | .error message labels notes =>
              let s1 := toString span.start
              let s2 := toString span.stop
              (.err (.error s!"function call error for \"{ident}\" at ({s1}:{s2}): {message}"
                (labels ++ [Label.primary message span]) notes), ctx2)

/-- Sequential resolution of a list of expressions, left to right, stopping at
the first error or panic (the `collect::<Result<Vec<_>, _>>` of
`Array::resolve`). -/
def resolveList : List Expr → Context → ROut (List Value) × Context
  | [], ctx => (.ok [], ctx)
  | e :: rest, ctx =>
      match resolveO e ctx with
      | (.ok v, ctx2) =>
          match resolveList rest ctx2 with
          | (.ok vs, ctx3) => (.ok (v :: vs), ctx3)
          | (.err er, ctx3) => (.err er, ctx3)
          | (.panicked m, ctx3) => (.panicked m, ctx3)
      | (.err er, ctx2) => (.err er, ctx2)
      | (.panicked m, ctx2) => (.panicked m, ctx2)

end

/-- Mirrors `function::Parameter`. -/
structure Parameter where
  keyword : String
  kind : Kind
  required : Bool

/-- Mirrors `function::ResolvedArgument`: a declared parameter together with
the expression bound to it. -/
structure ResolvedArgument where
  argument : Parameter
  expression : Expr

/-- Mirrors `ArgumentList`: the keyword-indexed store of bound argument
expressions handed to a function's `compile` hook.  The Rust type is a
hash map; inserting an already present keyword replaces its expression. -/
structure ArgumentList where
  entries : List (String × Expr)

def ArgumentList.empty : ArgumentList := ⟨[]⟩

/-- Insertion into an association list, replacing an existing binding of the
same keyword in place. -/
def insertEntry : List (String × Expr) → String → Expr → List (String × Expr)
  | [], k, e => [(k, e)]
  | (k0, e0) :: rest, k, e =>
      if k0 = k then (k, e) :: rest else (k0, e0) :: insertEntry rest k e

/-- Mirrors `ArgumentList::insert`. -/
def ArgumentList.insert (l : ArgumentList) (k : String) (e : Expr) : ArgumentList :=
  ⟨insertEntry l.entries k e⟩

/-- Mirrors `ArgumentList::keywords`. -/
def ArgumentList.keywords (l : ArgumentList) : List String := l.entries.map (·.1)

/-- Lookup of the expression bound to a keyword. -/
def ArgumentList.get (l : ArgumentList) (k : String) : Option Expr :=
  (l.entries.find? (fun p => p.1 == k)).map (·.2)

/-- Mirrors the `Function` trait of the registry (named `VFunction` here only
because `Function` is an existing Lean namespace): identifier, declared
parameters, the `compile` hook producing the inner expression actually
executed for a call, and the optional `compile_argument` hook that may
precompute an argument into a static.  The hooks are arbitrary, reflecting the
open registry; the environments and the opaque compile-time side-channel are
omitted because no vendored node reads them. -/
structure VFunction where
  identifier : String
  parameters : List Parameter
  compile : ArgumentList → Except String Expr
  compileArgument : List (String × Option ResolvedArgument) → String → Option Expr →
      Except String (Option Value)

/-- Mirrors `function_call::Error`; payload fields that are purely diagnostic
display strings are omitted. -/
inductive FCError where
  | undefined (identSpan : Span) (ident : String) (idents : List String)
  | wrongNumberOfArgs (argumentsSpan : Span) (max : Nat)
  | unknownKeyword (keywordSpan : Span) (identSpan : Span) (keywords : List String)
  | missingArgument (callSpan : Span) (keyword : String) (position : Nat)
  | compilation (callSpan : Span) (error : String)
  | abortInfallible (identSpan : Span) (abortSpan : Span)
  | invalidArgumentKind (parameter : Parameter) (got : Kind) (argumentSpan : Span)
  | fallibleArgument (exprSpan : Span)
  | updateState (callSpan : Span) (error : String)

/-- Outcome of a compile-time step: success, a `function_call::Error`, or a
Rust panic made explicit. -/
inductive CompRes (α : Type) where
  | ok (a : α)
  | err (e : FCError)
  | panicked (msg : String)

/-- Mirrors the registry lookup of `FunctionCall::new`: the first function
whose identifier matches, together with its positional index. -/
def lookupFunction (funcs : List VFunction) (ident : String) : Option (Nat × VFunction) :=
  funcs.enum.find? (fun p => p.2.identifier == ident)

/-- Mirrors the arguments-span computation of the arity-error branch of
`FunctionCall::new` (`first().unwrap()` / `last().unwrap()`); the defaults are
unreachable there because the branch requires a non-empty argument list. -/
def argumentsSpan (args : List Arg) : Span :=
  Span.new ((args.head?.map (fun a => a.1.start)).getD 0)
    ((args.getLast?.map (fun a => a.1.stop)).getD 0)

/-- Mirrors the parameter selection of one iteration of the binding loop of
`FunctionCall::new`: an unkeyed argument takes the parameter at the positional
cursor `index` and advances the cursor; a keyword argument takes the parameter
with that keyword, advancing the cursor exactly when that parameter sits at
the cursor; `none` when no parameter matches. -/
def bindStep (params : List Parameter) (a : Arg) (index : Nat) : Option (Parameter × Nat) :=
  match argKeyword a with
  | none => (params.get? index).map (fun p => (p, index + 1))
  | some k =>
      (params.enum.find? (fun q => q.2.keyword == k)).map
        (fun q => (q.2, if q.1 == index then index + 1 else index))

/-- Mirrors the argument-binding loop of `FunctionCall::new` (the `for node in
&arguments` loop): `index` is the positional cursor moved by `bindStep`; a
positional argument past the declared parameters panics with "exists", as the
source unwraps the absent keyword span there, and an unresolvable keyword is
`UnknownKeyword`.  Each bound argument is checked: no Kind intersection with
the parameter is `InvalidArgumentKind`; an intersection that is not a superset
sets the `maybe_fallible_arguments` flag; a fallible argument TypeDef is
`FallibleArgument`.  The surviving argument is inserted into the
`ArgumentList` under the parameter keyword. -/
def bindGo (function : VFunction) (identSpan : Span) :
    List Arg → Nat → ArgumentList → Bool → CompRes (ArgumentList × Bool)
  | [], _, list, mfa => .ok (list, mfa)
  | a :: rest, index, list, mfa =>
      let argumentSpan := argNodeSpan a
      match bindStep function.parameters a index with
      | none =>
          match argKeywordSpan a with
          | some ks =>
              .err (.unknownKeyword ks identSpan (function.parameters.map (·.keyword)))
          | none => .panicked "exists"
      | some (parameter, index2) =>
          let argumentTypeDef := (argExpr a).typeDef
          let exprKind := argumentTypeDef.kind
          let paramKind := parameter.kind
          if !paramKind.intersects exprKind then
            .err (.invalidArgumentKind parameter exprKind argumentSpan)
          else
            let mfa2 := if !paramKind.is_superset exprKind then true else mfa
            if argumentTypeDef.is_fallible then
              .err (.fallibleArgument (argExprSpan a))
            else
              bindGo function identSpan rest index2
                (list.insert parameter.keyword (argExpr a)) mfa2

/-- Mirrors the missing-required-argument scan of `FunctionCall::new`: the
first required parameter (with its position) whose keyword is not bound. -/
def firstMissing (function : VFunction) (list : ArgumentList) : Option (Nat × Parameter) :=
  function.parameters.enum.find?
    (fun q => q.2.required && !(list.keywords.contains q.2.keyword))

/-- Mirrors the `Expression::update_state` hook.  The trait default returns
`Ok(())` and none of the nodes embedded here overrides it. -/
def Expr.updateState (_ : Expr) : Except String Unit := .ok ()

/-- Mirrors `FunctionCall::new`: registry lookup (`Undefined`), arity check
(`WrongNumberOfArgs` carrying the declared parameter count), the argument
binding loop, the missing-required-argument check, the function's `compile`
hook (its failure wrapped as `Compilation`), the `AbortInfallible` check when
`abort_on_error` is requested on a statically infallible call, the
state-update hook, and finally the construction of the bound node carrying
the registry index and the original argument list. -/
def FunctionCall.new (callSpan : Span) (identNode : Span × String) (abortOnError : Bool)
    (arguments : List Arg) (funcs : List VFunction) : CompRes Expr :=
  let identSpan := identNode.1
  let ident := identNode.2
  match lookupFunction funcs ident with
  | none => .err (.undefined identSpan ident (funcs.map (·.identifier)))
  | some (functionId, function) =>
      if arguments.length > function.parameters.length then
        .err (.wrongNumberOfArgs (argumentsSpan arguments) function.parameters.length)
      else
        match bindGo function identSpan arguments 0 ArgumentList.empty false with
        | .err e => .err e
        | .panicked m => .panicked m
        | .ok (list, maybeFallibleArguments) =>
            match firstMissing function list with
            | some (i, p) => .err (.missingArgument callSpan p.keyword i)
            | none =>
                match function.compile list with
                | .error e => .err (.compilation callSpan e)
                | .ok expr =>
                    if abortOnError && !maybeFallibleArguments
                        && !(expr.typeDef.is_fallible) then
                      .err (.abortInfallible identSpan
                        (Span.new identSpan.stop (identSpan.stop + 1)))
                    else
                      match expr.updateState with
                      | .error err => .err (.updateState callSpan err)
                      | .ok _ =>
                          .ok (.fcall abortOnError expr maybeFallibleArguments callSpan
                            function.identifier functionId arguments)

/-- Mirrors `CompiledArgument`: a statically precomputed argument or a dynamic
resolved argument to be compiled in place. -/
inductive CompiledArgument where
  | Static (v : Value)
  | Dynamic (r : ResolvedArgument)

/-- Modelled from the spec: the keyword pass of `Function::resolve_arguments`
(lib/vrl/compiler/src/function.rs, not vendored).  Every keyword argument, in
written order, binds the parameter carrying its keyword (a later duplicate
replacing an earlier binding); arguments whose keyword does not resolve are
skipped instead of failing, since the call node was already validated when it
was constructed. -/
def bindKeywords (params : List Parameter) : List Arg → List (String × Expr) → List (String × Expr)
  | [], acc => acc
  | a :: rest, acc =>
      match argKeyword a with
      | some k =>
          match params.find? (fun p => p.keyword == k) with
          | some p => bindKeywords params rest (insertEntry acc p.keyword (argExpr a))
          | none => bindKeywords params rest acc
      | none => bindKeywords params rest acc

/-- Modelled from the spec: the positional pass of
`Function::resolve_arguments`.  Every unkeyed argument, in written order,
claims the next unclaimed parameter slot (left to right): the first declared
parameter bound neither by a keyword argument nor by an earlier unkeyed
argument.  An unkeyed argument with no unclaimed slot left is skipped, since
the call node was already validated when it was constructed. -/
def fillPositional (params : List Parameter) : List Arg → List (String × Expr) → List (String × Expr)
  | [], acc => acc
  | a :: rest, acc =>
      match argKeyword a with
      | some _ => fillPositional params rest acc
      | none =>
          match params.find? (fun p => !(acc.any (fun q => q.1 == p.keyword))) with
          | some p => fillPositional params rest (insertEntry acc p.keyword (argExpr a))
          | none => fillPositional params rest acc

/-- Modelled from the spec: `Function::resolve_arguments` resolves the
supplied arguments so they are in the order defined by the function, yielding
one entry per declared parameter, in declaration order, pairing each
parameter keyword with the argument bound to it (if any).  Keyword arguments
bind the parameters carrying their keywords, and the unkeyed arguments then
fill, left to right, the slots still unclaimed — the behaviour the vendored
test module of function_call.rs pins down (see
`resolveArguments_vendored_tests`). -/
def VFunction.resolveArguments (function : VFunction) (args : List Arg) :
    List (String × Option ResolvedArgument) :=
  let bound := fillPositional function.parameters args
    (bindKeywords function.parameters args [])
  function.parameters.map (fun p =>
    (p.keyword, (bound.find? (fun q => q.1 == p.keyword)).map (fun q => ⟨p, q.2⟩)))

/-- The per-entry loop of `FunctionCall::compile_arguments`: the
`compile_argument` hook may turn an entry into a static; otherwise a bound
argument stays dynamic; processing stops at the first hook error. -/
def compileArgsGo (function : VFunction) (resolved : List (String × Option ResolvedArgument)) :
    List (String × Option ResolvedArgument) →
      Except String (List (String × Option CompiledArgument))
  | [] => .ok []
  | (keyword, argument) :: rest =>
      match function.compileArgument resolved keyword (argument.map (·.expression)) with
      | .error e => .error e
      | .ok compiled =>
          let arg := match compiled with
            | some v => some (CompiledArgument.Static v)
            | none => argument.map (fun r => CompiledArgument.Dynamic r)
          match compileArgsGo function resolved rest with
          | .error e => .error e
          | .ok l => .ok ((keyword, arg) :: l)

/-- Mirrors `FunctionCall::compile_arguments`. -/
def FunctionCall.compileArguments (function : VFunction) (arguments : List Arg) :
    Except String (List (String × Option CompiledArgument)) :=
  let resolved := function.resolveArguments arguments
  compileArgsGo function resolved resolved

theorem insertEntry_mem {l : List (String × Expr)} {k : String} {e : Expr}
    {x : String × Expr} (h : x ∈ insertEntry l k e) : x = (k, e) ∨ x ∈ l := by
  induction l with
  | nil => simpa [insertEntry] using h
  | cons p rest ih =>
      by_cases hk : p.1 = k
      · simp [insertEntry, hk] at h
        rcases h with h | h
        · exact Or.inl (by simp [h])
        · exact Or.inr (by simp [h])
      · obtain ⟨p1, p2⟩ := p
        simp only [insertEntry, if_neg hk] at h
        rcases List.mem_cons.mp h with h | h
        · exact Or.inr (by simp [h])
        · rcases ih h with h | h
          · exact Or.inl h
          · exact Or.inr (List.mem_cons_of_mem _ h)

theorem bindKeywords_mem {params : List Parameter} {args : List Arg}
    {acc : List (String × Expr)} {x : String × Expr}
    (h : x ∈ bindKeywords params args acc) :
    x ∈ acc ∨ x.2 ∈ args.map argExpr := by
  induction args generalizing acc with
  | nil => exact Or.inl (by simpa [bindKeywords] using h)
  | cons a rest ih =>
      simp only [bindKeywords] at h
      have step : ∀ {acc2 : List (String × Expr)},
          x ∈ bindKeywords params rest acc2 →
          (x ∈ acc2 ∨ x.2 ∈ (a :: rest).map argExpr) := by
        intro acc2 hx
        rcases ih hx with h2 | h2
        · exact Or.inl h2
        · exact Or.inr (by rw [List.map_cons]; exact List.mem_cons_of_mem _ h2)
      have ins : ∀ {kw : String},
          x ∈ bindKeywords params rest (insertEntry acc kw (argExpr a)) →
          (x ∈ acc ∨ x.2 ∈ (a :: rest).map argExpr) := by
        intro kw hx
        rcases step hx with h2 | h2
        · rcases insertEntry_mem h2 with h3 | h3
          · exact Or.inr (by simp [h3])
          · exact Or.inl h3
        · exact Or.inr h2
      rcases hka : argKeyword a with _ | k
      · simp only [hka] at h
        exact step h
      · simp only [hka] at h
        rcases hq : params.find? (fun p => p.keyword == k) with _ | p
        · simp only [hq] at h
          exact step h
        · simp only [hq] at h
          exact ins h

theorem fillPositional_mem {params : List Parameter} {args : List Arg}
    {acc : List (String × Expr)} {x : String × Expr}
    (h : x ∈ fillPositional params args acc) :
    x ∈ acc ∨ x.2 ∈ args.map argExpr := by
  induction args generalizing acc with
  | nil => exact Or.inl (by simpa [fillPositional] using h)
  | cons a rest ih =>
      simp only [fillPositional] at h
      have step : ∀ {acc2 : List (String × Expr)},
          x ∈ fillPositional params rest acc2 →
          (x ∈ acc2 ∨ x.2 ∈ (a :: rest).map argExpr) := by
        intro acc2 hx
        rcases ih hx with h2 | h2
        · exact Or.inl h2
        · exact Or.inr (by rw [List.map_cons]; exact List.mem_cons_of_mem _ h2)
      have ins : ∀ {kw : String},
          x ∈ fillPositional params rest (insertEntry acc kw (argExpr a)) →
          (x ∈ acc ∨ x.2 ∈ (a :: rest).map argExpr) := by
        intro kw hx
        rcases step hx with h2 | h2
        · rcases insertEntry_mem h2 with h3 | h3
          · exact Or.inr (by simp [h3])
          · exact Or.inl h3
        · exact Or.inr h2
      rcases hka : argKeyword a with _ | k
      · simp only [hka] at h
        rcases hq : params.find? (fun p => !(acc.any (fun q => q.1 == p.keyword))) with _ | p
        · simp only [hq] at h
          exact step h
        · simp only [hq] at h
          exact ins h
      · simp only [hka] at h
        exact step h

theorem resolveArguments_dynamic_mem {function : VFunction} {args : List Arg}
    {k : String} {r : ResolvedArgument}
    (h : (k, some r) ∈ function.resolveArguments args) :
    r.expression ∈ args.map argExpr := by
  simp only [VFunction.resolveArguments, List.mem_map] at h
  obtain ⟨p, hpmem, hp⟩ := h
  have hr : ((fillPositional function.parameters args
        (bindKeywords function.parameters args [])).find?
        (fun q => q.1 == p.keyword)).map
      (fun q => (⟨p, q.2⟩ : ResolvedArgument)) = some r := congrArg Prod.snd hp
  rcases hq : (fillPositional function.parameters args
      (bindKeywords function.parameters args [])).find?
      (fun q => q.1 == p.keyword) with _ | q
  · rw [hq] at hr; simp at hr
  · rw [hq] at hr
    simp only [Option.map_some'] at hr
    obtain rfl : (⟨p, q.2⟩ : ResolvedArgument) = r := by injection hr
    have hmem := List.mem_of_find?_eq_some hq
    rcases fillPositional_mem hmem with h2 | h2
    · rcases bindKeywords_mem h2 with h3 | h3
      · simp at h3
      · exact h3
    · exact h2

theorem compileArgsGo_dynamic_mem {function : VFunction}
    {resolved l : List (String × Option ResolvedArgument)}
    {cargs : List (String × Option CompiledArgument)}
    {k : String} {r : ResolvedArgument}
    (h : compileArgsGo function resolved l = .ok cargs)
    (hmem : (k, some (CompiledArgument.Dynamic r)) ∈ cargs) : (k, some r) ∈ l := by
  induction l generalizing cargs with
  | nil =>
      simp only [compileArgsGo] at h
      obtain rfl : ([] : List (String × Option CompiledArgument)) = cargs := by injection h
      simp at hmem
  | cons p rest ih =>
      obtain ⟨keyword, argument⟩ := p
      simp only [compileArgsGo] at h
      rcases hhook : function.compileArgument resolved keyword (argument.map (·.expression)) with
        e | compiled
      · rw [hhook] at h; exact absurd h (by simp)
      · rw [hhook] at h
        simp only at h
        rcases hrest : compileArgsGo function resolved rest with e | l2
        · rw [hrest] at h; exact absurd h (by simp)
        · rw [hrest] at h
          simp only at h
          rcases compiled with _ | v
          · simp only at h
            have hcc : (keyword, argument.map (fun r => CompiledArgument.Dynamic r)) :: l2
                = cargs := by
              injection h
            rw [← hcc] at hmem
            rcases List.mem_cons.mp hmem with hx | hx
            · rcases argument with _ | ra
              · simp at hx
              · simp only [Option.map_some'] at hx
                have hk : k = keyword := congrArg Prod.fst hx
                have h2 : some (CompiledArgument.Dynamic r)
                    = some (CompiledArgument.Dynamic ra) := congrArg Prod.snd hx
                have h3 : r = ra := by
                  injection h2 with h4
                  injection h4 with h5
                rw [hk, h3]
                exact List.mem_cons_self _ _
            · exact List.mem_cons_of_mem _ (ih hrest hx)
          · simp only at h
            have hcc : (keyword, some (CompiledArgument.Static v)) :: l2 = cargs := by
              injection h
            rw [← hcc] at hmem
            rcases List.mem_cons.mp hmem with hx | hx
            · have h2 : some (CompiledArgument.Dynamic r)
                  = some (CompiledArgument.Static v) := congrArg Prod.snd hx
              exact absurd h2 (by simp)
            · exact List.mem_cons_of_mem _ (ih hrest hx)

theorem compileArguments_dynamic_mem {function : VFunction} {args : List Arg}
    {cargs : List (String × Option CompiledArgument)}
    {k : String} {r : ResolvedArgument}
    (h : FunctionCall.compileArguments function args = .ok cargs)
    (hmem : (k, some (CompiledArgument.Dynamic r)) ∈ cargs) :
    r.expression ∈ args.map argExpr :=
  resolveArguments_dynamic_mem (compileArgsGo_dynamic_mem h hmem)

mutual

/-- Structural size of an expression, used as the termination measure of the
bytecode compiler (whose recursion reaches argument expressions through the
argument-resolution pipeline rather than through direct subterms). -/
def Expr.esize : Expr → Nat
  | .leaf _ _ _ => 1
  | .noop => 1
  | .array es => 1 + esizeList es
  | .fcall _ inner _ _ _ _ args => 1 + inner.esize + esizeArgs args

/-- Combined size of a list of expressions. -/
def esizeList : List Expr → Nat
  | [] => 0
  | e :: rest => 1 + e.esize + esizeList rest

/-- Combined size of the expressions of an argument list. -/
def esizeArgs : List Arg → Nat
  | [] => 0
  | (_, _, _, e) :: rest => 1 + e.esize + esizeArgs rest

end

theorem esize_mem_lt {e : Expr} {l : List Expr} (h : e ∈ l) : e.esize < esizeList l := by
  induction l with
  | nil => simp at h
  | cons x rest ih =>
      rcases List.mem_cons.mp h with h1 | h1
      · subst h1
        simp only [esizeList]
        omega
      · have := ih h1
        simp only [esizeList]
        omega

theorem esize_argExpr_le (a : Arg) (rest : List Arg) :
    (argExpr a).esize < esizeArgs (a :: rest) := by
  obtain ⟨s, o, s2, e⟩ := a
  simp only [esizeArgs, argExpr]
  omega

theorem esize_mem_args_lt {e : Expr} {args : List Arg} (h : e ∈ args.map argExpr) :
    e.esize < esizeArgs args := by
  induction args with
  | nil => simp at h
  | cons x rest ih =>
      rw [List.map_cons] at h
      rcases List.mem_cons.mp h with h1 | h1
      · subst h1
        exact esize_argExpr_le x rest
      · have h2 := ih h1
        obtain ⟨s, o, s2, e2⟩ := x
        simp only [esizeArgs]
        omega

theorem compileArguments_dynBound {function : VFunction} {args : List Arg}
    {cargs : List (String × Option CompiledArgument)}
    (h : FunctionCall.compileArguments function args = .ok cargs) :
    ∀ p ∈ cargs, ∀ r, p.2 = some (CompiledArgument.Dynamic r) →
      r.expression.esize < esizeArgs args := by
  intro p hp r hr
  obtain ⟨k, arg⟩ := p
  simp only at hr
  subst hr
  exact esize_mem_args_lt (compileArguments_dynamic_mem h hp)

/-- Modelled from the spec: the bytecode builder, holding the registry, the
opcode stream and the side pools of constants and precomputed statics. -/
structure Vm where
  functions : List VFunction
  instructions : List Instr
  constants : List Value
  statics : List Value

/-- Mirrors `Vm::write_opcode`. -/
def Vm.writeOpcode (vm : Vm) (o : OpCode) : Vm :=
  { vm with instructions := vm.instructions ++ [.op o] }

/-- Mirrors `Vm::write_primitive`. -/
def Vm.writePrimitive (vm : Vm) (n : Nat) : Vm :=
  { vm with instructions := vm.instructions ++ [.primitive n] }

/-- Modelled from the spec: `Vm::add_constant` appends to the constants pool
and yields the index of the appended constant. -/
def Vm.addConstant (vm : Vm) (v : Value) : Nat × Vm :=
  (vm.constants.length, { vm with constants := vm.constants ++ [v] })

/-- Modelled from the spec: `Vm::add_static` appends to the statics pool and
yields the index of the appended static. -/
def Vm.addStatic (vm : Vm) (v : Value) : Nat × Vm :=
  (vm.statics.length, { vm with statics := vm.statics ++ [v] })

/-- Mirrors `Vm::function`: lookup by registry index. -/
def Vm.function (vm : Vm) (id : Nat) : Option VFunction := vm.functions.get? id

mutual

/-- Mirrors `Expression::compile_to_vm` for the vendored nodes.  A modelled
leaf compiles like a literal: one constant load (the node contract leaves
exactly one value on the stack per node).  Noop (`Noop::compile_to_vm`) loads
the null constant.  Array (`Array::compile_to_vm`) compiles its children in
reverse declaration order, then emits `CreateArray` followed by the element
count.  FunctionCall (`FunctionCall::compile_to_vm`) looks up its function by
registry index, resolves and compiles the arguments, emits one entry per
declared parameter in declaration order, then a single `Call` opcode followed
by the function id and the span start and end. -/
def compileToVm : Expr → Vm → Except String Vm
  | .leaf _ res _, vm =>
      let w := match res with
        | .ok v => v
        | .error _ => Value.null
      let p := vm.addConstant w
      .ok ((p.2.writeOpcode .constant).writePrimitive p.1)
  | .noop, vm =>
      let p := vm.addConstant Value.null
      .ok ((p.2.writeOpcode .constant).writePrimitive p.1)
  | .array es, vm =>
      match compileListB (esizeList es) es.reverse
          (fun _ he => esize_mem_lt (List.mem_reverse.mp he)) vm with
      | .error s => .error s
      | .ok vm2 => .ok ((vm2.writeOpcode .createArray).writePrimitive es.length)
  | .fcall _ _ _ span _ functionId args, vm =>
      match vm.function functionId with
      | none =>
          let fid := toString functionId
          .error s!"Function {fid} not found."
      | some f =>
          match hc : FunctionCall.compileArguments f args with
          | .error e => .error e
          | .ok cargs =>
              match compileEntriesB (esizeArgs args) cargs
                  (compileArguments_dynBound hc) vm with
              | .error e => .error e
              | .ok vm2 =>
                  .ok ((((vm2.writeOpcode .call).writePrimitive functionId).writePrimitive
                    span.start).writePrimitive span.stop)
termination_by e vm => (Expr.esize e, 0)
decreasing_by
  · apply Prod.Lex.left
    simp only [Expr.esize]
    omega
  · apply Prod.Lex.left
    simp only [Expr.esize]
    omega

/-- Sequential compilation of a list of expressions, threading the builder and
stopping at the first error; the bound `n` is the termination measure. -/
def compileListB (n : Nat) (l : List Expr) (h : ∀ e ∈ l, e.esize < n) (vm : Vm) :
    Except String Vm :=
  match l, h with
  | [], _ => .ok vm
  | e :: rest, h =>
      match compileToVm e vm with
      | .error s => .error s
      | .ok vm2 => compileListB n rest (fun x hx => h x (List.mem_cons_of_mem e hx)) vm2
termination_by (n, l.length + 1)
decreasing_by
  · apply Prod.Lex.left
    exact h e (List.mem_cons_self e rest)
  · apply Prod.Lex.right
    simp only [List.length_cons]
    omega

/-- The entry-emission loop of `FunctionCall::compile_to_vm`: a static entry
adds the value to the statics pool and emits `MoveStaticParameter` with the
index, a dynamic entry compiles its expression in place and emits
`MoveParameter`, an absent entry emits `EmptyParameter`. -/
def compileEntriesB (n : Nat) (l : List (String × Option CompiledArgument))
    (h : ∀ p ∈ l, ∀ r, p.2 = some (CompiledArgument.Dynamic r) →
      r.expression.esize < n)
    (vm : Vm) : Except String Vm :=
  match l, h with
  | [], _ => .ok vm
  | (k, some (CompiledArgument.Static v)) :: rest, h =>
      let p := vm.addStatic v
      compileEntriesB n rest (fun x hx => h x (List.mem_cons_of_mem _ hx))
        ((p.2.writeOpcode .moveStaticParameter).writePrimitive p.1)
  | (k, some (CompiledArgument.Dynamic r)) :: rest, h =>
      match compileToVm r.expression vm with
      | .error e => .error e
      | .ok vm2 =>
          compileEntriesB n rest (fun x hx => h x (List.mem_cons_of_mem _ hx))
            (vm2.writeOpcode .moveParameter)
  | (k, none) :: rest, h =>
      compileEntriesB n rest (fun x hx => h x (List.mem_cons_of_mem _ hx))
        (vm.writeOpcode .emptyParameter)
termination_by (n, l.length + 1)
decreasing_by
  · apply Prod.Lex.right
    simp only [List.length_cons]
    omega
  · apply Prod.Lex.left
    exact h (k, some (CompiledArgument.Dynamic r))
      (List.mem_cons_self _ rest) r rfl
  · apply Prod.Lex.right
    simp only [List.length_cons]
    omega
  · apply Prod.Lex.right
    simp only [List.length_cons]
    omega

end

/-- Sequential compilation of a list of expressions, stated without the
termination bound; the reference point for emission-order properties. -/
def compileSeq : List Expr → Vm → Except String Vm
  | [], vm => .ok vm
  | e :: rest, vm =>
      match compileToVm e vm with
      | .error s => .error s
      | .ok vm2 => compileSeq rest vm2

/-- The per-entry emission discipline of a call, as the spec words it: one
entry per resolved parameter, in order; a static entry is pushed via
`MoveStaticParameter` indexed into the statics pool, a dynamic entry is
compiled in place and followed by `MoveParameter`, an absent entry emits
`EmptyParameter`. -/
def emitEntries : List (String × Option CompiledArgument) → Vm → Except String Vm
  | [], vm => .ok vm
  | (_, some (CompiledArgument.Static v)) :: rest, vm =>
      let p := vm.addStatic v
      emitEntries rest ((p.2.writeOpcode .moveStaticParameter).writePrimitive p.1)
  | (_, some (CompiledArgument.Dynamic r)) :: rest, vm =>
      match compileToVm r.expression vm with
      | .error e => .error e
      | .ok vm2 => emitEntries rest (vm2.writeOpcode .moveParameter)
  | (_, none) :: rest, vm => emitEntries rest (vm.writeOpcode .emptyParameter)

theorem compileListB_eq_compileSeq (n : Nat) :
    ∀ (l : List Expr) (h : ∀ e ∈ l, e.esize < n) (vm : Vm),
      compileListB n l h vm = compileSeq l vm := by
  intro l
  induction l with
  | nil => intro h vm; simp [compileListB, compileSeq]
  | cons e rest ih =>
      intro h vm
      simp only [compileListB, compileSeq]
      cases hc : compileToVm e vm with
      | error s => simp only [hc]
      | ok vm2 =>
          simp only [hc]
          exact ih _ vm2

theorem compileEntriesB_eq_emitEntries (n : Nat) :
    ∀ (l : List (String × Option CompiledArgument))
      (h : ∀ p ∈ l, ∀ r, p.2 = some (CompiledArgument.Dynamic r) →
        r.expression.esize < n) (vm : Vm),
      compileEntriesB n l h vm = emitEntries l vm := by
  intro l
  induction l with
  | nil => intro h vm; simp [compileEntriesB, emitEntries]
  | cons p rest ih =>
      intro h vm
      obtain ⟨k, arg⟩ := p
      rcases arg with _ | ca
      · simp only [compileEntriesB, emitEntries]
        exact ih _ _
      · rcases ca with v | r
        · simp only [compileEntriesB, emitEntries]
          exact ih _ _
        · simp only [compileEntriesB, emitEntries]
          cases hc : compileToVm r.expression vm with
          | error e => simp only [hc]
          | ok vm2 =>
              simp only [hc]
              exact ih _ _

theorem compileToVm_array (es : List Expr) (vm : Vm) :
    compileToVm (.array es) vm =
      match compileSeq es.reverse vm with
      | .error s => .error s
      | .ok vm2 => .ok ((vm2.writeOpcode .createArray).writePrimitive es.length) := by
  simp only [compileToVm]
  rw [compileListB_eq_compileSeq]

theorem compileToVm_fcall (ab : Bool) (inner : Expr) (mfa : Bool) (span : Span)
    (idt : String) (functionId : Nat) (args : List Arg) (vm : Vm) :
    compileToVm (.fcall ab inner mfa span idt functionId args) vm =
      match vm.function functionId with
      | none =>
          let fid := toString functionId
          .error s!"Function {fid} not found."
      | some f =>
          match FunctionCall.compileArguments f args with
          | .error e => .error e
          | .ok cargs =>
              match emitEntries cargs vm with
              | .error e => .error e
              | .ok vm2 =>
                  .ok ((((vm2.writeOpcode .call).writePrimitive functionId).writePrimitive
                    span.start).writePrimitive span.stop) := by
  cases hf : vm.function functionId with
  | none => simp only [compileToVm, hf]
  | some f =>
      simp only [compileToVm, hf]
      split
      · rename_i e heq
        rw [heq]
      · rename_i cargs heq
        rw [compileEntriesB_eq_emitEntries, heq]

/-- The pure cursor walk of the binder: each supplied argument paired with the
parameter it binds, in walk order; `none` when some keyword does not resolve
or an unkeyed argument runs past the declared parameters. -/
def specWalk (params : List Parameter) : List Arg → Nat → Option (List (Arg × Parameter))
  | [], _ => some []
  | a :: rest, index =>
      match bindStep params a index with
      | none => none
      | some (p, index2) => (specWalk params rest index2).map (fun l => (a, p) :: l)

/-- A successful binding run is exactly the pure cursor walk: the resulting
`ArgumentList` is the left fold of the insertions of the walk's pairs, and the
`maybe_fallible_arguments` flag is set exactly when some walked pair has a
partial (non-superset) Kind match. -/
theorem bindGo_ok_spec {function : VFunction} {identSpan : Span} :
    ∀ {args : List Arg} {index : Nat} {list : ArgumentList} {mfa : Bool}
      {out : ArgumentList × Bool},
      bindGo function identSpan args index list mfa = .ok out →
      ∃ pairs, specWalk function.parameters args index = some pairs ∧
        out.1 = pairs.foldl (fun acc q => acc.insert q.2.keyword (argExpr q.1)) list ∧
        out.2 = (mfa || pairs.any (fun q =>
          !(q.2.kind.is_superset ((argExpr q.1).typeDef.kind)))) := by
  intro args
  induction args with
  | nil =>
      intro index list mfa out h
      simp only [bindGo] at h
      obtain rfl : (list, mfa) = out := by injection h
      exact ⟨[], by simp [specWalk], by simp, by simp⟩
  | cons a rest ih =>
      intro index list mfa out h
      simp only [bindGo] at h
      rcases hs : bindStep function.parameters a index with _ | pr
      · simp only [hs] at h
        rcases hks : argKeywordSpan a with _ | ks
        · simp only [hks] at h
          exact absurd h (by simp)
        · simp only [hks] at h
          exact absurd h (by simp)
      · obtain ⟨p, idx2⟩ := pr
        simp only [hs] at h
        rcases hint : p.kind.intersects ((argExpr a).typeDef.kind) with _ | _
        · simp [hint] at h
        · rcases hfall : ((argExpr a).typeDef.is_fallible) with _ | _
          · simp only [hint, hfall, Bool.not_true, Bool.false_eq_true, if_false] at h
            obtain ⟨pairs, hspec, h1, h2⟩ := ih h
            refine ⟨(a, p) :: pairs, ?_, ?_, ?_⟩
            · simp [specWalk, hs, hspec]
            · simpa [List.foldl_cons] using h1
            · rw [h2, List.any_cons]
              cases hsup : p.kind.is_superset ((argExpr a).typeDef.kind) <;>
                cases mfa <;> simp [hsup]
          · simp [hint, hfall] at h

theorem insertEntry_get (l : List (String × Expr)) (k0 k : String) (e0 : Expr) :
    ((insertEntry l k0 e0).find? (fun p => p.1 == k)).map (·.2) =
      if k0 = k then some e0 else (l.find? (fun p => p.1 == k)).map (·.2) := by
  induction l with
  | nil =>
      by_cases hk : k0 = k
      · simp [insertEntry, List.find?_cons, hk]
      · have hb : (k0 == k) = false := by simp [hk]
        simp [insertEntry, List.find?_cons, hk, hb]
  | cons p rest ih =>
      obtain ⟨k1, e1⟩ := p
      by_cases h10 : k1 = k0
      · subst h10
        by_cases hk : k1 = k <;> simp [insertEntry, List.find?_cons, hk]
      · by_cases h1k : k1 = k
        · subst h1k
          have hk : ¬ k0 = k1 := fun hh => h10 hh.symm
          simp [insertEntry, h10, hk, List.find?_cons]
        · simp [insertEntry, h10, h1k, List.find?_cons, ih]

theorem ArgumentList.get_insert (l : ArgumentList) (k0 k : String) (e0 : Expr) :
    (l.insert k0 e0).get k = if k0 = k then some e0 else l.get k := by
  simpa [ArgumentList.insert, ArgumentList.get] using insertEntry_get l.entries k0 k e0

/-- The `ArgumentList` of a walk binds each keyword to the expression of the
last argument of the walk bound to that keyword (falling back to the initial
list): a later argument claiming an already-bound parameter silently replaces
the earlier binding. -/
theorem foldl_insert_get (pairs : List (Arg × Parameter)) (init : ArgumentList) (k : String) :
    (pairs.foldl (fun acc q => acc.insert q.2.keyword (argExpr q.1)) init).get k =
      (((pairs.reverse.find? (fun q => q.2.keyword == k)).map (fun q => argExpr q.1)).or
        (init.get k)) := by
  induction pairs generalizing init with
  | nil => simp [Option.or]
  | cons q rest ih =>
      rw [List.foldl_cons, ih, List.reverse_cons, List.find?_append]
      by_cases hk : q.2.keyword = k
      · cases hA : (rest.reverse.find? (fun q2 => q2.2.keyword == k)) <;>
          simp [List.find?_cons, hk, ArgumentList.get_insert, hA, Option.or]
      · have hb : (q.2.keyword == k) = false := by simp [hk]
        cases hA : (rest.reverse.find? (fun q2 => q2.2.keyword == k)) <;>
          simp [List.find?_cons, hk, hb, ArgumentList.get_insert, hA, Option.or]

/-- Per-argument acceptability of a keyword argument: the keyword resolves to
a declared parameter whose Kind intersects the argument's Kind, and the
argument's TypeDef is infallible — exactly the per-argument checks of the
binding loop. -/
def kwArgOK (function : VFunction) (a : Arg) : Bool :=
  match argKeyword a with
  | none => false
  | some k =>
      match function.parameters.enum.find? (fun q => q.2.keyword == k) with
      | none => false
      | some q =>
          q.2.kind.intersects ((argExpr a).typeDef.kind)
            && !((argExpr a).typeDef.is_fallible)

/-- A keyword-only argument list whose arguments all pass the per-argument
checks binds successfully from any cursor position, and the resulting list
maps each keyword to the expression of the last argument written with that
keyword (falling back to the initial list). -/
theorem bindGo_kwOnly {function : VFunction} {identSpan : Span} :
    ∀ {args : List Arg} {index : Nat} {list : ArgumentList} {mfa : Bool},
      (∀ a ∈ args, kwArgOK function a = true) →
      ∃ out, bindGo function identSpan args index list mfa = .ok out ∧
        ∀ k, out.1.get k =
          (((args.reverse.find? (fun a => argKeyword a == some k)).map argExpr).or
            (list.get k)) := by
  intro args
  induction args with
  | nil =>
      intro index list mfa hall
      exact ⟨(list, mfa), by simp [bindGo], fun k => by simp [Option.or]⟩
  | cons a rest ih =>
      intro index list mfa hall
      have ha := hall a (List.mem_cons_self a rest)
      rcases hka : argKeyword a with _ | ka
      · simp only [kwArgOK, hka] at ha
        exact absurd ha (by simp)
      · simp only [kwArgOK, hka] at ha
        rcases hq : function.parameters.enum.find? (fun q => q.2.keyword == ka) with _ | q
        · simp only [hq] at ha
          exact absurd ha (by simp)
        · simp only [hq] at ha
          obtain ⟨hint, hfall⟩ := (Bool.and_eq_true _ _).mp ha
          have hqk : q.2.keyword = ka := by
            have := List.find?_some hq
            exact beq_iff_eq.mp this
          have hfall2 : (argExpr a).typeDef.is_fallible = false := by
            revert hfall
            cases ((argExpr a).typeDef.is_fallible) <;> simp
          obtain ⟨out, hok, hget⟩ :=
            @ih (if q.1 == index then index + 1 else index)
              (list.insert q.2.keyword (argExpr a))
              (if (!q.2.kind.is_superset ((argExpr a).typeDef.kind)) = true
                then true else mfa)
              (fun x hx => hall x (List.mem_cons_of_mem a hx))
          refine ⟨out, ?_, ?_⟩
          · simp only [bindGo, bindStep, hka, hq, Option.map_some', hint, hfall2,
              Bool.not_true, Bool.false_eq_true, if_false]
            exact hok
          · intro k
            rw [hget k, List.reverse_cons, List.find?_append]
            by_cases hkk : ka = k
            · subst hkk
              cases hA : (rest.reverse.find? (fun x => argKeyword x == some ka)) <;>
                simp [List.find?_cons, hka, ArgumentList.get_insert, hqk, hA, Option.or]
            · have hb : ((argKeyword a) == some k) = false := by simp [hka, hkk]
              have hb2 : ¬ (q.2.keyword = k) := by rw [hqk]; exact hkk
              cases hA : (rest.reverse.find? (fun x => argKeyword x == some k)) <;>
                simp [List.find?_cons, hb, ArgumentList.get_insert, hb2, hA, Option.or]

/-- With pairwise distinct keywords, at most one argument carries a given
keyword. -/
theorem nodup_keyword_filter_le_one {args : List Arg} {k : String}
    (h : (args.map argKeyword).Nodup) :
    (args.filter (fun a => argKeyword a == some k)).length ≤ 1 := by
  induction args with
  | nil => simp
  | cons a rest ih =>
      rw [List.map_cons, List.nodup_cons] at h
      obtain ⟨hnot, hrest⟩ := h
      by_cases hk : (argKeyword a == some k) = true
      · have hempty : rest.filter (fun a => argKeyword a == some k) = [] := by
          rw [List.filter_eq_nil_iff]
          intro b hb hpb
          have h1 : argKeyword b = some k := by simpa using hpb
          have h2 : argKeyword a = some k := by simpa using hk
          have : argKeyword a ∈ rest.map argKeyword := by
            rw [h2, ← h1]
            exact List.mem_map_of_mem argKeyword hb
          exact hnot this
        simp [List.filter_cons, hk, hempty]
      · simp only [List.filter_cons, hk, if_false]
        exact ih hrest

/-- Lookup of the unique argument with a given keyword is invariant under
permutation of the argument list when keywords are pairwise distinct. -/
theorem find?_perm_of_nodup {args args2 : List Arg} {k : String}
    (hperm : args.Perm args2) (hnodup : (args.map argKeyword).Nodup) :
    args.reverse.find? (fun a => argKeyword a == some k) =
      args2.reverse.find? (fun a => argKeyword a == some k) := by
  have hperm2 : args.reverse.Perm args2.reverse :=
    (List.reverse_perm args).trans (hperm.trans (List.reverse_perm args2).symm)
  have hf : (args.reverse.filter (fun a => argKeyword a == some k)).Perm
      (args2.reverse.filter (fun a => argKeyword a == some k)) :=
    hperm2.filter _
  have hnodup1 : ((args.reverse).map argKeyword).Nodup := by
    rw [List.map_reverse]
    exact List.nodup_reverse.mpr hnodup
  have hlen1 := @nodup_keyword_filter_le_one args.reverse k hnodup1
  have heq : args.reverse.filter (fun a => argKeyword a == some k) =
      args2.reverse.filter (fun a => argKeyword a == some k) := by
    rcases hl : args.reverse.filter (fun a => argKeyword a == some k) with _ | ⟨x, tail⟩
    · rw [hl] at hf
      exact (hf.symm.eq_nil).symm
    · rw [hl] at hlen1 hf
      have htail : tail = [] := by
        simp only [List.length_cons] at hlen1
        exact List.eq_nil_of_length_eq_zero (by omega)
      subst htail
      exact (List.perm_singleton.mp hf.symm).symm
  rw [← List.filter_head?, ← List.filter_head?, heq]

/-- Test fixture mirroring the test module of function_call.rs: the inner
expression returned by the compile hook of the `test` function. -/
def testFnExpr : Expr := .leaf 100 (.ok .null) TypeDef.null.infallible

/-- Test fixture mirroring the `TestFn` of function_call.rs: identifier
`test`, optional integer parameters `one`, `two`, `three`, compile hook
yielding a null-typed infallible expression. -/
def testFn : VFunction :=
  { identifier := "test"
    parameters :=
      [ { keyword := "one", kind := Kind.integer, required := false }
      , { keyword := "two", kind := Kind.integer, required := false }
      , { keyword := "three", kind := Kind.integer, required := false } ]
    compile := fun _ => .ok testFnExpr
    compileArgument := fun _ _ _ => .ok none }

/-- An integer-literal leaf with trace identifier `i`. -/
def intLeaf (i : Nat) : Expr := .leaf i (.ok (.integer 1)) ⟨false, false, Kind.integer⟩

/-- An unkeyed (positional) argument node. -/
def posArg (i : Nat) : Arg := (Span.new 0 0, none, Span.new 0 0, intLeaf i)

/-- A keyword argument node. -/
def kwArg (kw : String) (i : Nat) : Arg :=
  (Span.new 0 0, some (Span.new 0 0, kw), Span.new 0 0, intLeaf i)

/-- A resolved entry binding an integer parameter of the `test` fixture. -/
def resolvedInt (kw : String) (i : Nat) : String × Option ResolvedArgument :=
  (kw, some ⟨{ keyword := kw, kind := Kind.integer, required := false }, intLeaf i⟩)

/-- The modelled `Function::resolve_arguments` reproduces the expectations of
the vendored test module of function_call.rs (`resolve_arguments_simple`,
`resolve_arguments_named_unordered`, `resolve_arguments_unnamed_unordered_one`
and `resolve_arguments_unnamed_unordered_two`): in particular, in
`test(three: 3, 2, one: 1)` the unkeyed argument fills the next unclaimed
slot `two`. -/
theorem resolveArguments_vendored_tests :
    testFn.resolveArguments [posArg 1, posArg 2, posArg 3] =
      [resolvedInt "one" 1, resolvedInt "two" 2, resolvedInt "three" 3] ∧
    testFn.resolveArguments [kwArg "three" 3, kwArg "two" 2, kwArg "one" 1] =
      [resolvedInt "one" 1, resolvedInt "two" 2, resolvedInt "three" 3] ∧
    testFn.resolveArguments [kwArg "three" 3, posArg 2, kwArg "one" 1] =
      [resolvedInt "one" 1, resolvedInt "two" 2, resolvedInt "three" 3] ∧
    testFn.resolveArguments [kwArg "three" 3, posArg 1, posArg 2] =
      [resolvedInt "one" 1, resolvedInt "two" 2, resolvedInt "three" 3] :=
  ⟨rfl, rfl, rfl, rfl⟩

/-- C1 (amended): for every function call whose arguments pass the lookup,
arity, keyword and type checks, the binder walks the supplied arguments in
written order with a positional cursor: an unkeyed argument binds the
parameter at the cursor and advances it, and a keyword argument binds the
parameter with that keyword, advancing the cursor exactly when that parameter
sits at the cursor (`specWalk`); the bound `ArgumentList` is exactly the fold
of the walk's insertions, so the slot an unkeyed argument fills may coincide
with a slot already claimed by an earlier keyword argument bound ahead of the
cursor, the later binding replacing the earlier; and keyword-only calls with
pairwise distinct keywords bind identically under any permutation. -/
theorem c1_binding_algorithm :
    (∀ (function : VFunction) (identSpan : Span) (args : List Arg)
        (out : ArgumentList × Bool),
        bindGo function identSpan args 0 ArgumentList.empty false = .ok out →
        ∃ pairs, specWalk function.parameters args 0 = some pairs ∧
          out.1 = pairs.foldl (fun acc q => acc.insert q.2.keyword (argExpr q.1))
            ArgumentList.empty)
    ∧ (∀ (function : VFunction) (identSpan : Span) (args args2 : List Arg),
        args.Perm args2 →
        (args.map argKeyword).Nodup →
        (∀ a ∈ args, kwArgOK function a = true) →
        ∃ out out2,
          bindGo function identSpan args 0 ArgumentList.empty false = .ok out ∧
          bindGo function identSpan args2 0 ArgumentList.empty false = .ok out2 ∧
          ∀ k, out.1.get k = out2.1.get k) := by
  constructor
  · intro function identSpan args out h
    obtain ⟨pairs, h1, h2, _⟩ := bindGo_ok_spec h
    exact ⟨pairs, h1, h2⟩
  · intro function identSpan args args2 hperm hnodup hall
    obtain ⟨out, hok, hget⟩ :=
      @bindGo_kwOnly function identSpan args 0 ArgumentList.empty false hall
    have hall2 : ∀ a ∈ args2, kwArgOK function a = true := fun a ha =>
      hall a (hperm.mem_iff.mpr ha)
    obtain ⟨out2, hok2, hget2⟩ :=
      @bindGo_kwOnly function identSpan args2 0 ArgumentList.empty false hall2
    refine ⟨out, out2, hok, hok2, fun k => ?_⟩
    rw [hget k, hget2 k, find?_perm_of_nodup hperm hnodup]

/-- Witness for C1: a positional argument of the `test` fixture binds the
parameter at cursor zero, and the keyword-only call `test(two: 2, one: 1)`
binds identically to `test(one: 1, two: 2)`. -/
theorem c1_binding_algorithm_witness :
    (∃ pairs, specWalk testFn.parameters [posArg 1] 0 = some pairs ∧
      (ArgumentList.mk [("one", intLeaf 1)] : ArgumentList) =
        pairs.foldl (fun acc q => acc.insert q.2.keyword (argExpr q.1))
          ArgumentList.empty)
    ∧ (∃ out out2,
        bindGo testFn (Span.new 0 0) [kwArg "two" 2, kwArg "one" 1] 0
          ArgumentList.empty false = .ok out ∧
        bindGo testFn (Span.new 0 0) [kwArg "one" 1, kwArg "two" 2] 0
          ArgumentList.empty false = .ok out2 ∧
        ∀ k, out.1.get k = out2.1.get k) := by
  constructor
  · exact c1_binding_algorithm.1 testFn (Span.new 0 0) [posArg 1]
      (ArgumentList.mk [("one", intLeaf 1)], false) (by rfl)
  · exact c1_binding_algorithm.2 testFn (Span.new 0 0)
      [kwArg "two" 2, kwArg "one" 1] [kwArg "one" 1, kwArg "two" 2]
      (List.Perm.swap (kwArg "one" 1) (kwArg "two" 2) [])
      (by decide) (by decide)

/-- Counterexample for C1 as frozen: with the `test(one, two, three)` fixture,
in `test(two: 2, 10, 11)` the second unkeyed argument claims parameter `two`
(already bound by the keyword argument) and leaves `three` unbound, instead of
filling the next unclaimed slot `three`; and the keyword-only call
`test(one: 1, one: 2)` does not bind identically to its permutation
`test(one: 2, one: 1)`. -/
theorem c1_counterexample :
    (∃ out, bindGo testFn (Span.new 0 0) [kwArg "two" 2, posArg 10, posArg 11] 0
        ArgumentList.empty false = .ok out ∧
      out.1.get "two" = some (intLeaf 11) ∧ out.1.get "three" = none) ∧
    (∃ o1 o2,
      bindGo testFn (Span.new 0 0) [kwArg "one" 1, kwArg "one" 2] 0
        ArgumentList.empty false = .ok o1 ∧
      bindGo testFn (Span.new 0 0) [kwArg "one" 2, kwArg "one" 1] 0
        ArgumentList.empty false = .ok o2 ∧
      o1.1.get "one" ≠ o2.1.get "one") := by
  constructor
  · exact ⟨(ArgumentList.mk [("two", intLeaf 11), ("one", intLeaf 10)], false),
      by rfl, by rfl, by rfl⟩
  · refine ⟨(ArgumentList.mk [("one", intLeaf 2)], false),
      (ArgumentList.mk [("one", intLeaf 1)], false), by rfl, by rfl, ?_⟩
    intro h
    simp [ArgumentList.get, intLeaf, List.find?] at h

theorem resolveList_append (l1 l2 : List Expr) :
    ∀ ctx : Context,
      resolveList (l1 ++ l2) ctx =
        match resolveList l1 ctx with
        | (.ok vs, ctx2) =>
            match resolveList l2 ctx2 with
            | (.ok vs2, ctx3) => (.ok (vs ++ vs2), ctx3)
            | (.err e, ctx3) => (.err e, ctx3)
            | (.panicked m, ctx3) => (.panicked m, ctx3)
        | (.err e, ctx2) => (.err e, ctx2)
        | (.panicked m, ctx2) => (.panicked m, ctx2) := by
  induction l1 with
  | nil =>
      intro ctx
      rcases h : resolveList l2 ctx with ⟨r, c⟩
      rcases r with vs | e | m <;> simp [resolveList, h]
  | cons x rest ih =>
      intro ctx
      rw [List.cons_append]
      simp only [resolveList]
      rcases hx : resolveO x ctx with ⟨rx, ctxa⟩
      rcases rx with v | er | m
      · simp only
        rw [ih ctxa]
        rcases hr : resolveList rest ctxa with ⟨rr, ctxb⟩
        rcases rr with vs2 | er2 | m2 <;> simp only
        rcases h2 : resolveList l2 ctxb with ⟨r2, ctxc⟩
        rcases r2 with vs3 | e3 | m3 <;> simp
      · rfl
      · rfl

/-- C8: Array::resolve evaluates its children strictly left to right and
fail-fast: when every child resolves, the result is the array of the values
in source order; when a child fails after a successful prefix, the call
returns that child's error unchanged, the runtime context (the evaluation
trace) stops at the failing child, and the children after it are never
evaluated — the result does not depend on them — and no array value is
produced. -/
theorem c8_array_resolve_fail_fast :
    (∀ (es : List Expr) (vs : List Value) (ctx ctx2 : Context),
        resolveList es ctx = (.ok vs, ctx2) →
        resolveO (.array es) ctx = (.ok (Value.array vs), ctx2))
    ∧ (∀ (pre post : List Expr) (bad : Expr) (ctx ctx2 ctx3 : Context)
        (vals : List Value) (e : ExpressionError),
        resolveList pre ctx = (.ok vals, ctx2) →
        resolveO bad ctx2 = (.err e, ctx3) →
        resolveO (.array (pre ++ bad :: post)) ctx = (.err e, ctx3)) := by
  constructor
  · intro es vs ctx ctx2 h
    simp only [resolveO, h]
  · intro pre post bad ctx ctx2 ctx3 vals e h1 h2
    have hlist : resolveList (pre ++ bad :: post) ctx = (.err e, ctx3) := by
      rw [resolveList_append, h1]
      simp only [resolveList, h2]
    simp only [resolveO, hlist]

/-- A leaf expression failing with an `Abort`; used as the concrete inner
expression of the C5 witness. -/
def abortLeaf : Expr := .leaf 7 (.error (.abort (Span.new 1 2))) TypeDef.null

/-- Witness for C8: `[noop, bad, noop]` with `bad` the abort-like failing
leaf replaced by an erroring leaf. -/
def errLeaf : Expr :=
  .leaf 8 (.error (.error "boom" [] [])) ⟨true, false, Kind.integer⟩

/-- Witness for C8 applied at concrete inputs: the all-success case on
`[noop]` and the fail-fast case on `[noop] ++ errLeaf :: [intLeaf 9]`: the
error of `errLeaf` is returned, the trace records only the failing leaf, and
the trailing `intLeaf 9` is never evaluated. -/
theorem c8_array_resolve_fail_fast_witness :
    resolveO (.array [.noop]) [] = (.ok (Value.array [.null]), []) ∧
    resolveO (.array ([.noop] ++ errLeaf :: [intLeaf 9])) [] =
      (.err (.error "boom" [] []), [8]) := by
  constructor
  · exact c8_array_resolve_fail_fast.1 [.noop] [.null] [] [] (by rfl)
  · exact c8_array_resolve_fail_fast.2 [.noop] [intLeaf 9] errLeaf [] [] [8]
      [.null] (.error "boom" [] []) (by rfl) (by rfl)

/-- C5: a FunctionCall whose inner expression resolves to the reserved
`Abort` control-flow signal panics (a hard stop) with the defensive message
of the source; it neither returns the `Abort` nor converts it into an
ordinary `Error` result. -/
theorem c5_resolve_abort_panics (ab : Bool) (mfa : Bool) (inner : Expr)
    (span aspan : Span) (idt : String) (fid : Nat) (args : List Arg)
    (ctx ctx2 : Context)
    (h : resolveO inner ctx = (.err (.abort aspan), ctx2)) :
    resolveO (.fcall ab inner mfa span idt fid args) ctx =
      (.panicked "abort errors must only be defined by `abort` statement", ctx2) := by
  simp only [resolveO, h]

/-- Witness for C5 at a concrete call whose inner expression aborts. -/
theorem c5_resolve_abort_panics_witness :
    resolveO (.fcall false abortLeaf false (Span.new 0 3) "test" 0 []) [] =
      (.panicked "abort errors must only be defined by `abort` statement", [7]) :=
  c5_resolve_abort_panics false false abortLeaf (Span.new 0 3) (Span.new 1 2)
    "test" 0 [] [] [7] (by rfl)

/-- C6: for an array literal of N children, `Array::type_def` yields an array
Kind whose collection has exactly N positional entries, entry i carrying
child i's own Kind in source order, and a fallibility flag equal to the
disjunction of the children's fallibility flags — in particular false for the
empty array. -/
theorem c6_array_type_def (es : List Expr) :
    ∃ coll, (Expr.typeDef (.array es)).kind = Kind.arrayOf coll ∧
      coll.length = es.length ∧
      (∀ (i : Nat) (e : Expr), es.get? i = some e →
        coll.get? i = some (i, (Expr.typeDef e).kind)) ∧
      (Expr.typeDef (.array es)).fallible =
        es.any (fun e => (Expr.typeDef e).fallible) ∧
      (Expr.typeDef (.array [])).fallible = false := by
  refine ⟨((es.map Expr.typeDef).map TypeDef.kind).enum, ?_, ?_, ?_, ?_, ?_⟩
  · simp [Expr.typeDef, typeDefList_eq_map, TypeDef.array, TypeDef.with_fallibility]
  · simp [List.enum_length]
  · intro i e hi
    rw [List.get?_enum, List.get?_map, List.get?_map, hi]
    rfl
  · have hgen : ∀ l : List Expr, (l.map Expr.typeDef).any TypeDef.is_fallible
        = l.any (fun e => (Expr.typeDef e).fallible) := by
      intro l
      induction l with
      | nil => rfl
      | cons e rest ih => simp [List.any_cons, ih, TypeDef.is_fallible]
    simp [Expr.typeDef, typeDefList_eq_map, TypeDef.with_fallibility,
      TypeDef.is_fallible, hgen]
  · rfl

/-- Witness for C6 on `[intLeaf 5, noop]`: entry 0 is the integer Kind. -/
theorem c6_array_type_def_witness :
    ∃ coll, (Expr.typeDef (.array [intLeaf 5, .noop])).kind = Kind.arrayOf coll ∧
      coll.length = 2 ∧ coll.get? 0 = some (0, Kind.integer) ∧
      (Expr.typeDef (.array [intLeaf 5, .noop])).fallible = false := by
  obtain ⟨coll, h1, h2, h3, h4, _⟩ := c6_array_type_def [intLeaf 5, .noop]
  exact ⟨coll, h1, h2, h3 0 (intLeaf 5) rfl, h4⟩

/-- C9: a call supplying more arguments than the function declares parameters
fails with `WrongNumberOfArgs` carrying the declared parameter count as the
maximum; the outcome does not depend on the registry's compile hooks or on
anything after the arity check, so no partially compiled node is produced. -/
theorem c9_arity (callSpan identSpan : Span) (ident : String) (abortOnError : Bool)
    (args : List Arg) (funcs : List VFunction) (fid : Nat) (f : VFunction)
    (hlook : lookupFunction funcs ident = some (fid, f))
    (harity : args.length > f.parameters.length) :
    FunctionCall.new callSpan (identSpan, ident) abortOnError args funcs =
      .err (.wrongNumberOfArgs (argumentsSpan args) f.parameters.length) := by
  simp only [FunctionCall.new, hlook]
  rw [if_pos harity]

/-- Witness for C9: `test` declares three parameters; a four-argument call
fails with the maximum three. -/
theorem c9_arity_witness :
    FunctionCall.new (Span.new 0 9) (Span.new 0 4, "test") false
      [posArg 1, posArg 2, posArg 3, posArg 4] [testFn] =
      .err (.wrongNumberOfArgs
        (argumentsSpan [posArg 1, posArg 2, posArg 3, posArg 4]) 3) :=
  c9_arity (Span.new 0 9) (Span.new 0 4) "test" false
    [posArg 1, posArg 2, posArg 3, posArg 4] [testFn] 0 testFn (by rfl) (by decide)

/-- C10: a successful binding run is never failed for claiming the same
parameter slot twice: the bound `ArgumentList` maps each keyword to the
expression of the LAST walked argument bound to it, the later argument
silently replacing the earlier; and a concrete call binding `one` twice (once
positionally, once by keyword) constructs successfully end to end. -/
theorem c10_duplicate_slot :
    (∀ (function : VFunction) (identSpan : Span) (args : List Arg)
        (out : ArgumentList × Bool) (pairs : List (Arg × Parameter)),
        bindGo function identSpan args 0 ArgumentList.empty false = .ok out →
        specWalk function.parameters args 0 = some pairs →
        ∀ k, out.1.get k =
          ((pairs.reverse.find? (fun q => q.2.keyword == k)).map
            (fun q => argExpr q.1)))
    ∧ FunctionCall.new (Span.new 0 5) (Span.new 0 4, "test") false
        [posArg 1, kwArg "one" 2] [testFn] =
        .ok (.fcall false testFnExpr false (Span.new 0 5) "test" 0
          [posArg 1, kwArg "one" 2]) := by
  constructor
  · intro function identSpan args out pairs hok hspec
    obtain ⟨pairs2, hspec2, h1, _⟩ := bindGo_ok_spec hok
    rw [hspec] at hspec2
    obtain rfl : pairs = pairs2 := by injection hspec2
    intro k
    rw [h1, foldl_insert_get]
    cases (pairs.reverse.find? (fun q => q.2.keyword == k)) <;>
      simp [ArgumentList.empty, ArgumentList.get, Option.or]
  · rfl

/-- Witness for C10: the duplicated call `test(1, one: 2)` binds `one` to the
later expression. -/
theorem c10_duplicate_slot_witness :
    ∀ k, (ArgumentList.mk [("one", intLeaf 2)] : ArgumentList).get k =
      (([((posArg 1 : Arg),
            ({ keyword := "one", kind := Kind.integer, required := false } : Parameter)),
          (kwArg "one" 2,
            { keyword := "one", kind := Kind.integer, required := false })].reverse.find?
          (fun q => q.2.keyword == k)).map (fun q => argExpr q.1)) :=
  c10_duplicate_slot.1 testFn (Span.new 0 4) [posArg 1, kwArg "one" 2]
    (ArgumentList.mk [("one", intLeaf 2)], false)
    [(posArg 1, { keyword := "one", kind := Kind.integer, required := false }),
     (kwArg "one" 2, { keyword := "one", kind := Kind.integer, required := false })]
    (by rfl) (by rfl)

/-- Inversion of a successful `FunctionCall::new`: the registry lookup
succeeded, the arity check passed, the binding loop succeeded, no required
argument is missing, the compile hook succeeded, the `AbortInfallible` check
did not fire, and the produced node carries exactly the computed pieces. -/
theorem new_ok_spec {callSpan : Span} {identNode : Span × String} {abortOnError : Bool}
    {arguments : List Arg} {funcs : List VFunction} {e : Expr}
    (h : FunctionCall.new callSpan identNode abortOnError arguments funcs = .ok e) :
    ∃ functionId function list mfa expr,
      lookupFunction funcs identNode.2 = some (functionId, function) ∧
      ¬(arguments.length > function.parameters.length) ∧
      bindGo function identNode.1 arguments 0 ArgumentList.empty false =
        .ok (list, mfa) ∧
      firstMissing function list = none ∧
      function.compile list = .ok expr ∧
      (abortOnError && !mfa && !(expr.typeDef.is_fallible)) = false ∧
      e = .fcall abortOnError expr mfa callSpan function.identifier functionId
        arguments := by
  simp only [FunctionCall.new] at h
  rcases hl : lookupFunction funcs identNode.2 with _ | q
  · rw [hl] at h
    exact absurd h (by simp)
  · obtain ⟨functionId, function⟩ := q
    rw [hl] at h
    simp only at h
    by_cases harity : arguments.length > function.parameters.length
    · rw [if_pos harity] at h
      exact absurd h (by simp)
    · rw [if_neg harity] at h
      rcases hb : bindGo function identNode.1 arguments 0 ArgumentList.empty false with
        out | er | m
      · obtain ⟨list, mfa⟩ := out
        rw [hb] at h
        simp only at h
        rcases hm : firstMissing function list with _ | ip
        · rw [hm] at h
          simp only at h
          rcases hc : function.compile list with er | expr
          · rw [hc] at h
            exact absurd h (by simp)
          · rw [hc] at h
            simp only at h
            by_cases hab : (abortOnError && !mfa && !(expr.typeDef.is_fallible)) = true
            · rw [if_pos hab] at h
              exact absurd h (by simp)
            · rw [if_neg hab] at h
              simp only [Expr.updateState] at h
              refine ⟨functionId, function, list, mfa, expr, rfl, harity, hb, hm, hc,
                ?_, ?_⟩
              · revert hab
                cases (abortOnError && !mfa && !(expr.typeDef.is_fallible)) <;> simp
              · have := h
                injection this with h2
                exact h2.symm
        · obtain ⟨i, p⟩ := ip
          rw [hm] at h
          exact absurd h (by simp)
      · rw [hb] at h
        exact absurd h (by simp)
      · rw [hb] at h
        exact absurd h (by simp)

/-- A leaf whose Kind is the union of integer and bytes: it intersects an
integer parameter without being contained in it. -/
def wideLeaf : Expr :=
  .leaf 20 (.ok (.integer 1))
    ⟨false, false, .mk { KindFlags.none0 with kinteger := true, kbytes := true } none none⟩

/-- An unkeyed argument node carrying `wideLeaf`. -/
def wideArg : Arg := (Span.new 0 0, none, Span.new 0 0, wideLeaf)

/-- C3: for a successfully constructed call with `abort_on_error = false`, if
some walked argument's static Kind intersects its parameter's declared Kind
without being a full superset of it, the call's `type_def()` is fallible —
with no assumption that the argument's own TypeDef or the compile hook's
inner expression is fallible (a fallible argument could not even have bound). -/
theorem c3_partial_match_fallible (callSpan identSpan : Span) (ident : String)
    (args : List Arg) (funcs : List VFunction) (fid : Nat) (f : VFunction)
    (result : Expr) (pairs : List (Arg × Parameter)) (a : Arg) (p : Parameter)
    (hlook : lookupFunction funcs ident = some (fid, f))
    (hok : FunctionCall.new callSpan (identSpan, ident) false args funcs = .ok result)
    (hpairs : specWalk f.parameters args 0 = some pairs)
    (hmem : (a, p) ∈ pairs)
    (hint : p.kind.intersects ((argExpr a).typeDef.kind) = true)
    (hsup : p.kind.is_superset ((argExpr a).typeDef.kind) = false) :
    (Expr.typeDef result).is_fallible = true := by
  obtain ⟨fid2, f2, list, mfa, expr, hl2, hnar, hb, hm, hc, hab, heq⟩ := new_ok_spec hok
  have hl2' : lookupFunction funcs ident = some (fid2, f2) := hl2
  rw [hlook] at hl2'
  have hff : f = f2 := by
    injection hl2' with h1
    exact congrArg Prod.snd h1
  subst hff
  have hb' : bindGo f identSpan args 0 ArgumentList.empty false = .ok (list, mfa) := hb
  obtain ⟨pairs2, hspec2, _, h2⟩ := bindGo_ok_spec hb'
  rw [hpairs] at hspec2
  obtain rfl : pairs = pairs2 := by injection hspec2
  have hany : pairs.any
      (fun q => !(q.2.kind.is_superset ((argExpr q.1).typeDef.kind))) = true :=
    List.any_eq_true.mpr ⟨(a, p), hmem, by simp [hsup]⟩
  have hmfa : mfa = true := by simpa [hany] using h2
  subst hmfa
  rw [heq]
  simp [Expr.typeDef, TypeDef.with_fallibility, TypeDef.is_fallible]

/-- Witness for C3: `test(wideLeaf)` has a partial match on parameter `one`,
so the constructed call's TypeDef is fallible although the argument and the
inner expression are infallible. -/
theorem c3_partial_match_fallible_witness :
    (Expr.typeDef (.fcall false testFnExpr true (Span.new 0 5) "test" 0
      [wideArg])).is_fallible = true :=
  c3_partial_match_fallible (Span.new 0 5) (Span.new 0 4) "test" [wideArg] [testFn]
    0 testFn
    (.fcall false testFnExpr true (Span.new 0 5) "test" 0 [wideArg])
    [(wideArg, { keyword := "one", kind := Kind.integer, required := false })]
    wideArg { keyword := "one", kind := Kind.integer, required := false }
    (by rfl) (by rfl) (by rfl) (by simp) (by rfl) (by rfl)

/-- C4: a call that constructs successfully with `abort_on_error = false`,
whose arguments all fully match (no partial match) and whose compiled inner
expression is statically infallible, fails with `AbortInfallible` when the
same call is constructed with `abort_on_error = true`; and the successfully
constructed call reports an infallible TypeDef. -/
theorem c4_abort_infallible (callSpan identSpan : Span) (ident : String)
    (args : List Arg) (funcs : List VFunction) (inner : Expr) (sp2 : Span)
    (idt2 : String) (fid : Nat) (args2 : List Arg)
    (hok : FunctionCall.new callSpan (identSpan, ident) false args funcs =
      .ok (.fcall false inner false sp2 idt2 fid args2))
    (hinf : (Expr.typeDef inner).is_fallible = false) :
    FunctionCall.new callSpan (identSpan, ident) true args funcs =
      .err (.abortInfallible identSpan (Span.new identSpan.stop (identSpan.stop + 1)))
    ∧ (Expr.typeDef (.fcall false inner false sp2 idt2 fid args2)).is_fallible
        = false := by
  obtain ⟨fid2, f2, list, mfa, expr, hl, hnar, hb, hm, hc, hab, heq⟩ := new_ok_spec hok
  injection heq with e1 e2 e3 e4 e5 e6 e7
  subst e2
  have hmfa : mfa = false := e3.symm
  subst hmfa
  constructor
  · have hl' : lookupFunction funcs ident = some (fid2, f2) := hl
    have hb' : bindGo f2 identSpan args 0 ArgumentList.empty false =
      .ok (list, false) := hb
    simp only [FunctionCall.new, hl', if_neg hnar, hb', hm, hc]
    rw [if_pos (by simp [hinf])]
  · simpa [Expr.typeDef, TypeDef.is_fallible] using hinf

/-- Witness for C4: `test(1)` compiles with `abort_on_error = false` to an
infallible call, and the same call with `abort_on_error = true` fails with
`AbortInfallible`. -/
theorem c4_abort_infallible_witness :
    FunctionCall.new (Span.new 0 7) (Span.new 0 4, "test") true [posArg 1] [testFn] =
      .err (.abortInfallible (Span.new 0 4) (Span.new 4 5))
    ∧ (Expr.typeDef (.fcall false testFnExpr false (Span.new 0 7) "test" 0
        [posArg 1])).is_fallible = false :=
  c4_abort_infallible (Span.new 0 7) (Span.new 0 4) "test" [posArg 1] [testFn]
    testFnExpr (Span.new 0 7) "test" 0 [posArg 1] (by rfl) (by rfl)

theorem compileArgsGo_fst {function : VFunction}
    {resolved l : List (String × Option ResolvedArgument)}
    {out : List (String × Option CompiledArgument)}
    (h : compileArgsGo function resolved l = .ok out) :
    out.map Prod.fst = l.map Prod.fst := by
  induction l generalizing out with
  | nil =>
      simp only [compileArgsGo] at h
      injection h with h2
      subst h2
      rfl
  | cons p rest ih =>
      obtain ⟨keyword, argument⟩ := p
      simp only [compileArgsGo] at h
      rcases hhook : function.compileArgument resolved keyword
          (argument.map (·.expression)) with e | compiled
      · rw [hhook] at h
        exact absurd h (by simp)
      · rw [hhook] at h
        simp only at h
        rcases hrest : compileArgsGo function resolved rest with e | l2
        · rw [hrest] at h
          exact absurd h (by simp)
        · rw [hrest] at h
          simp only at h
          rcases compiled with _ | v
          · simp only at h
            injection h with h2
            subst h2
            simp [ih hrest]
          · simp only at h
            injection h with h2
            subst h2
            simp [ih hrest]

/-- The compiled-argument entries carry exactly the declared parameter
keywords, one entry per parameter, in declaration order. -/
theorem compileArguments_keywords {function : VFunction} {args : List Arg}
    {cargs : List (String × Option CompiledArgument)}
    (h : FunctionCall.compileArguments function args = .ok cargs) :
    cargs.map Prod.fst = function.parameters.map (·.keyword) := by
  rw [compileArgsGo_fst h]
  simp [VFunction.resolveArguments]

/-- C7: Array::compile_to_vm compiles its children in reverse declaration
order, and afterwards emits exactly one `CreateArray` opcode immediately
followed by the element count, and nothing else of its own. -/
theorem c7_array_bytecode (es : List Expr) (vm vm1 : Vm)
    (h : compileToVm (.array es) vm = .ok vm1) :
    ∃ vmMid, compileSeq es.reverse vm = .ok vmMid ∧
      vm1 = (vmMid.writeOpcode .createArray).writePrimitive es.length ∧
      vm1.instructions = vmMid.instructions ++
        [.op .createArray, .primitive es.length] := by
  rw [compileToVm_array] at h
  rcases hs : compileSeq es.reverse vm with e | vmMid
  · rw [hs] at h
    exact absurd h (by simp)
  · rw [hs] at h
    simp only at h
    injection h with h2
    refine ⟨vmMid, rfl, h2.symm, ?_⟩
    rw [← h2]
    simp [Vm.writeOpcode, Vm.writePrimitive]

/-- C2: a compiled FunctionCall pushes exactly one argument entry per declared
parameter, in call-declaration order (the entry keywords are exactly the
declared parameter keywords in order); the entries are emitted by
`emitEntries` — a static entry via `MoveStaticParameter` indexed into the
statics pool, a dynamic entry by compiling its expression in place followed
by `MoveParameter`, an absent entry via `EmptyParameter` — and after all
entries exactly one `Call` opcode is appended, followed by the function's
registry index and the call span's start and end. -/
theorem c2_call_bytecode (ab : Bool) (inner : Expr) (mfa : Bool) (span : Span)
    (idt : String) (fid : Nat) (args : List Arg) (vm vm1 : Vm)
    (h : compileToVm (.fcall ab inner mfa span idt fid args) vm = .ok vm1) :
    ∃ f cargs vmMid,
      vm.function fid = some f ∧
      FunctionCall.compileArguments f args = .ok cargs ∧
      cargs.map Prod.fst = f.parameters.map (·.keyword) ∧
      emitEntries cargs vm = .ok vmMid ∧
      vm1 = (((vmMid.writeOpcode .call).writePrimitive fid).writePrimitive
        span.start).writePrimitive span.stop ∧
      vm1.instructions = vmMid.instructions ++
        [.op .call, .primitive fid, .primitive span.start, .primitive span.stop] := by
  rw [compileToVm_fcall] at h
  rcases hf : vm.function fid with _ | f
  · rw [hf] at h
    exact absurd h (by simp)
  · rw [hf] at h
    simp only at h
    rcases hc : FunctionCall.compileArguments f args with e | cargs
    · rw [hc] at h
      exact absurd h (by simp)
    · rw [hc] at h
      simp only at h
      rcases hm : emitEntries cargs vm with e | vmMid
      · rw [hm] at h
        exact absurd h (by simp)
      · rw [hm] at h
        simp only at h
        injection h with h2
        refine ⟨f, cargs, vmMid, rfl, hc, compileArguments_keywords hc, hm,
          h2.symm, ?_⟩
        rw [← h2]
        simp [Vm.writeOpcode, Vm.writePrimitive]

theorem compileToVm_noop (vm : Vm) :
    compileToVm .noop vm =
      .ok (((vm.addConstant Value.null).2.writeOpcode .constant).writePrimitive
        (vm.addConstant Value.null).1) := by
  simp [compileToVm]

theorem compileToVm_leaf_ok (i : Nat) (v : Value) (td : TypeDef) (vm : Vm) :
    compileToVm (.leaf i (.ok v) td) vm =
      .ok (((vm.addConstant v).2.writeOpcode .constant).writePrimitive
        (vm.addConstant v).1) := by
  simp [compileToVm]

/-- A bytecode builder with no registered functions and empty pools. -/
def vmEmpty : Vm := ⟨[], [], [], []⟩

/-- Witness for C7 on `[noop]` compiled into the empty builder. -/
theorem c7_array_bytecode_witness :
    ∃ vmMid, compileSeq [Expr.noop].reverse vmEmpty = .ok vmMid ∧
      (⟨[], [.op .constant, .primitive 0, .op .createArray, .primitive 1],
        [Value.null], []⟩ : Vm) =
        (vmMid.writeOpcode .createArray).writePrimitive 1 ∧
      (⟨[], [.op .constant, .primitive 0, .op .createArray, .primitive 1],
        [Value.null], []⟩ : Vm).instructions =
        vmMid.instructions ++ [.op .createArray, .primitive 1] := by
  apply c7_array_bytecode [Expr.noop] vmEmpty
  rw [compileToVm_array]
  have hseq : compileSeq [Expr.noop].reverse vmEmpty =
      .ok (⟨[], [.op .constant, .primitive 0], [Value.null], []⟩ : Vm) := by
    simp [compileSeq, compileToVm_noop, Vm.addConstant, Vm.writeOpcode,
      Vm.writePrimitive, vmEmpty]
  rw [hseq]
  rfl

/-- Fixture for the C2 witness: function `vmfn(a, b, c)` whose hook
precomputes parameter `a` as a static; `b` is supplied dynamically and `c`
is left absent. -/
def vmFn : VFunction :=
  { identifier := "vmfn"
    parameters :=
      [ { keyword := "a", kind := Kind.integer, required := false }
      , { keyword := "b", kind := Kind.integer, required := false }
      , { keyword := "c", kind := Kind.integer, required := false } ]
    compile := fun _ => .ok testFnExpr
    compileArgument := fun _ k _ =>
      if k = "a" then .ok (some (Value.integer 7)) else .ok none }

/-- A bytecode builder holding only `vmFn`. -/
def vmWith : Vm := ⟨[vmFn], [], [], []⟩

/-- The compiled-argument entries of the C2 witness call `vmfn(b: 3)`. -/
def cargsC : List (String × Option CompiledArgument) :=
  [ ("a", some (.Static (Value.integer 7)))
  , ("b", some (.Dynamic ⟨{ keyword := "b", kind := Kind.integer, required := false },
      intLeaf 3⟩))
  , ("c", none) ]

/-- The builder after emitting the three entries of the C2 witness call. -/
def vmMidC : Vm :=
  ⟨[vmFn],
   [.op .moveStaticParameter, .primitive 0, .op .constant, .primitive 0,
    .op .moveParameter, .op .emptyParameter],
   [Value.integer 1], [Value.integer 7]⟩

/-- The fully compiled builder of the C2 witness call. -/
def vmEndC : Vm :=
  ⟨[vmFn],
   [.op .moveStaticParameter, .primitive 0, .op .constant, .primitive 0,
    .op .moveParameter, .op .emptyParameter, .op .call, .primitive 0,
    .primitive 2, .primitive 9],
   [Value.integer 1], [Value.integer 7]⟩

/-- Witness for C2 on the call `vmfn(b: 3)` with span 2..9: one entry per
parameter (static `a`, dynamic `b`, absent `c`), then the call opcode with
the registry index and the span. -/
theorem c2_call_bytecode_witness :
    ∃ f cargs vmMid,
      vmWith.function 0 = some f ∧
      FunctionCall.compileArguments f [kwArg "b" 3] = .ok cargs ∧
      cargs.map Prod.fst = f.parameters.map (·.keyword) ∧
      emitEntries cargs vmWith = .ok vmMid ∧
      vmEndC = (((vmMid.writeOpcode .call).writePrimitive 0).writePrimitive
        2).writePrimitive 9 ∧
      vmEndC.instructions = vmMid.instructions ++
        [.op .call, .primitive 0, .primitive 2, .primitive 9] := by
  apply c2_call_bytecode false testFnExpr false (Span.new 2 9) "vmfn" 0
    [kwArg "b" 3] vmWith
  rw [compileToVm_fcall]
  have hca : FunctionCall.compileArguments vmFn [kwArg "b" 3] = .ok cargsC := by rfl
  have hemit : emitEntries cargsC vmWith = .ok vmMidC := by
    simp [emitEntries, cargsC, intLeaf, compileToVm_leaf_ok, Vm.addStatic,
      Vm.addConstant, Vm.writeOpcode, Vm.writePrimitive, vmWith, vmMidC, vmFn]
  have hfn : vmWith.function 0 = some vmFn := by rfl
  rw [hfn]
  simp only [hca, hemit]
  rfl
